import Mathlib

/-!  Verification development for the gideon capture-and-deduplicate pipeline.

Shallow embedding of:
* `src/legacy/dedup.py`         (`ImageDeduplicator`)
* `src/legacy/record_photo.py`  (`ScreenCapture`)
* `src/gideon/mechanisms/save.py` (`add_recordings`)
* `src/gideon/client.py`        (`GideonCapture._dedup_and_update_db`)

External library calls (PIL image loading/resizing, `mss` screen grabs,
`cv2.imwrite`, the vector-database client) are modelled as parameters or as
already-performed inputs; every algorithmic step of the python source is
embedded as an executable Lean definition.
-/

namespace Gideon

/-! ### Hamming distance (`ImageDeduplicator.hamming_distance`) -/

/-- Hamming distance on character lists, exactly as computed by
`ImageDeduplicator.hamming_distance`:
`sum(c1 != c2 for c1, c2 in zip(hash1, hash2))`.
Python's `zip` truncates to the shorter argument. -/
def hammingList (l1 l2 : List Char) : Nat :=
  (l1.zip l2).countP (fun p => p.1 != p.2)

/-- The method `ImageDeduplicator.hamming_distance` on hash strings. -/
def hamming_distance (hash1 hash2 : String) : Nat :=
  hammingList hash1.toList hash2.toList

/-- Specification-side count: the number of positions, within the common
prefix of the two lists, at which they differ. Used to characterise what
`hamming_distance` returns on unequal-length inputs. -/
def differingPositions (l1 l2 : List Char) : Nat :=
  (List.range (min l1.length l2.length)).countP
    (fun i => l1.getD i ' ' != l2.getD i ' ')

theorem hammingList_eq_differingPositions (l1 l2 : List Char) :
    hammingList l1 l2 = differingPositions l1 l2 := by
  induction l1 generalizing l2 with
  | nil => simp [hammingList, differingPositions]
  | cons a l1 ih =>
    cases l2 with
    | nil => simp [hammingList, differingPositions]
    | cons b l2 =>
      simp only [hammingList, differingPositions, List.zip_cons_cons,
        List.countP_cons, List.length_cons, Nat.succ_min_succ,
        List.range_succ_eq_map, List.countP_map,
        List.getD_cons_succ, List.getD_cons_zero]
      have hfun : ((fun i => (a :: l1).getD i ' ' != (b :: l2).getD i ' ') ∘ Nat.succ)
          = (fun i => l1.getD i ' ' != l2.getD i ' ') := by
        funext i
        simp [Function.comp, List.getD_cons_succ]
      rw [hfun]
      have := ih l2
      simp only [hammingList, differingPositions] at this
      omega

theorem hammingList_le_min (l1 l2 : List Char) :
    hammingList l1 l2 ≤ min l1.length l2.length := by
  have h := List.countP_le_length (p := fun p : Char × Char => p.1 != p.2)
    (l := l1.zip l2)
  simpa [hammingList, List.length_zip] using h

theorem hammingList_self (l : List Char) : hammingList l l = 0 := by
  induction l with
  | nil => rfl
  | cons a l ih => simp [hammingList, List.countP_cons] at ih ⊢; simpa using ih

/-! ### Difference hash (`ImageDeduplicator.calculate_dhash`) -/

/-- One row of the numpy comparison `diff = pixels[:, 1:] > pixels[:, :-1]`
in `calculate_dhash`, rendered as the characters `''.join(str(int(d)) ...)`
produces: bit `c` is `'1'` exactly when the intensity at column `c + 1` is
strictly greater than the intensity at column `c`. -/
def dhashRow : List Nat → List Char
  | a :: b :: rest => (if a < b then '1' else '0') :: dhashRow (b :: rest)
  | _ => []

/-- The method `ImageDeduplicator.calculate_dhash` after the external
`img.convert('L').resize((hash_size + 1, hash_size))` call: the input is the
resulting `hash_size × (hash_size + 1)` grayscale intensity matrix (numpy
array, row major), the output the row-major concatenation of the per-row
neighbour comparison bits. -/
def calculate_dhash (pixels : List (List Nat)) : String :=
  String.mk ((pixels.map dhashRow).flatten)

/-- The bit rule under the claim's literal wording — "one bit per comparison
of each pixel's intensity to its right neighbor — 1 if strictly greater":
bit `c` is `'1'` when the pixel at column `c` is strictly greater than its
right neighbour. Stated only to compare against `dhashRow`, which is what
`calculate_dhash` actually computes. -/
def dhashRowClaimed : List Nat → List Char
  | a :: b :: rest => (if b < a then '1' else '0') :: dhashRowClaimed (b :: rest)
  | _ => []

/-- Variant of `calculate_dhash` under the claim's literal bit direction. -/
def calculate_dhash_claimed (pixels : List (List Nat)) : String :=
  String.mk ((pixels.map dhashRowClaimed).flatten)

theorem dhashRow_length : ∀ row : List Nat, (dhashRow row).length = row.length - 1
  | [] => rfl
  | [_] => rfl
  | a :: b :: rest => by
    have h := dhashRow_length (b :: rest)
    simp [dhashRow] at h ⊢
    omega

theorem dhashRow_getD : ∀ (row : List Nat) (c : Nat), c + 1 < row.length →
    (dhashRow row).getD c ' '
      = (if row.getD c 0 < row.getD (c + 1) 0 then '1' else '0')
  | a :: b :: rest, 0, _ => by simp [dhashRow]
  | a :: b :: rest, c + 1, h => by
    have h' : c + 1 < (b :: rest).length := by
      simpa [Nat.succ_lt_succ_iff] using h
    have := dhashRow_getD (b :: rest) c h'
    simpa [dhashRow, List.getD_cons_succ] using this
  | [], c, h => by simp at h
  | [_], c, h => by simp at h

theorem join_uniform_length (n : Nat) :
    ∀ ls : List (List Char), (∀ l ∈ ls, l.length = n) →
      ls.flatten.length = ls.length * n := by
  intro ls
  induction ls with
  | nil => intro _; simp
  | cons l ls ih =>
    intro h
    have hl : l.length = n := h l (by simp)
    have hrest : ∀ l' ∈ ls, l'.length = n := fun l' hl' => h l' (by simp [hl'])
    simp [List.flatten_cons, List.length_append, hl, ih hrest, Nat.succ_mul, Nat.add_comm]

theorem join_uniform_getD (n : Nat) :
    ∀ (ls : List (List Char)) (r c : Nat), (∀ l ∈ ls, l.length = n) →
      r < ls.length → c < n →
      ls.flatten.getD (r * n + c) ' ' = (ls.getD r []).getD c ' ' := by
  intro ls
  induction ls with
  | nil => intro r c _ hr _; simp at hr
  | cons l ls ih =>
    intro r c h hr hc
    have hl : l.length = n := h l (by simp)
    cases r with
    | zero =>
      have hlt : c < l.length := by omega
      simp only [List.flatten_cons, Nat.zero_mul, Nat.zero_add, List.getD_cons_zero]
      exact List.getD_append _ _ _ _ hlt
    | succ r =>
      have hrest : ∀ l' ∈ ls, l'.length = n := fun l' hl' => h l' (by simp [hl'])
      have hr' : r < ls.length := by simpa [Nat.succ_lt_succ_iff] using hr
      have hidx : l.length ≤ (r + 1) * n + c := by
        have : (r + 1) * n = r * n + n := by ring
        omega
      have hsub : (r + 1) * n + c - l.length = r * n + c := by
        have : (r + 1) * n = r * n + n := by ring
        omega
      simp only [List.flatten_cons]
      rw [List.getD_append_right _ _ _ _ hidx, hsub]
      exact ih r c hrest hr' hc

/-- C4 counterexample: on the single-row intensity matrix `[[0, 5]]`
(`hash_size = 1`), `calculate_dhash` emits `'1'` — the right neighbour `5` is
strictly greater than the pixel `0` — whereas the claim's bit rule
("1 if [the pixel's intensity is] strictly greater [than its right
neighbor's]") demands `'0'`. -/
theorem calculate_dhash_direction_counterexample :
    calculate_dhash [[0, 5]] = "1" ∧
      calculate_dhash_claimed [[0, 5]] = "0" ∧
      calculate_dhash [[0, 5]] ≠ calculate_dhash_claimed [[0, 5]] := by
  refine ⟨rfl, rfl, ?_⟩
  decide

/-- C4 (amended): for a `hash_size`-row matrix of intensities with
`hash_size + 1` columns — the shape `calculate_dhash` produces by grayscale
conversion and resizing — the hash is one bit per row-wise neighbour
comparison, `'1'` exactly when the right neighbour's intensity is strictly
greater than the pixel's, concatenated row major, of length exactly
`hash_size * hash_size`. -/
theorem calculate_dhash_bits (hash_size : Nat) (pixels : List (List Nat))
    (hrows : pixels.length = hash_size)
    (hcols : ∀ row ∈ pixels, row.length = hash_size + 1) :
    (calculate_dhash pixels).length = hash_size * hash_size ∧
      ∀ r c, r < hash_size → c < hash_size →
        (calculate_dhash pixels).toList.getD (r * hash_size + c) ' '
          = (if (pixels.getD r []).getD c 0 < (pixels.getD r []).getD (c + 1) 0
             then '1' else '0') := by
  have hunif : ∀ l ∈ pixels.map dhashRow, l.length = hash_size := by
    intro l hl
    rcases List.mem_map.mp hl with ⟨row, hrow, rfl⟩
    rw [dhashRow_length row, hcols row hrow]
    omega
  constructor
  · have := join_uniform_length hash_size (pixels.map dhashRow) hunif
    simpa [calculate_dhash, String.length, hrows] using this
  · intro r c hr hc
    have hr' : r < (pixels.map dhashRow).length := by simpa [hrows] using hr
    have hjoin := join_uniform_getD hash_size (pixels.map dhashRow) r c hunif hr' hc
    have hrow_mem : pixels.getD r [] ∈ pixels := by
      have hr2 : r < pixels.length := by omega
      rw [List.getD_eq_getElem _ _ hr2]
      exact List.getElem_mem hr2
    have hmap : (pixels.map dhashRow).getD r [] = dhashRow (pixels.getD r []) := by
      have hr2 : r < pixels.length := by omega
      rw [List.getD_eq_getElem _ _ (by simpa using hr2),
        List.getD_eq_getElem _ _ hr2, List.getElem_map]
    have hbit := dhashRow_getD (pixels.getD r []) c
      (by rw [hcols _ hrow_mem]; omega)
    calc (calculate_dhash pixels).toList.getD (r * hash_size + c) ' '
        = (pixels.map dhashRow).flatten.getD (r * hash_size + c) ' ' := rfl
      _ = ((pixels.map dhashRow).getD r []).getD c ' ' := hjoin
      _ = (dhashRow (pixels.getD r [])).getD c ' ' := by rw [hmap]
      _ = (if (pixels.getD r []).getD c 0 < (pixels.getD r []).getD (c + 1) 0
            then '1' else '0') := hbit

/-- C4 witness: the amended bit characterisation evaluated on the concrete
`2 × 3` intensity matrix `[[1, 2, 3], [3, 2, 1]]` (`hash_size = 2`). -/
theorem calculate_dhash_bits_witness :
    ([[1, 2, 3], [3, 2, 1]] : List (List Nat)).length = 2 ∧
      (∀ row ∈ ([[1, 2, 3], [3, 2, 1]] : List (List Nat)), row.length = 2 + 1) ∧
      ((calculate_dhash [[1, 2, 3], [3, 2, 1]]).length = 2 * 2 ∧
        ∀ r c, r < 2 → c < 2 →
          (calculate_dhash [[1, 2, 3], [3, 2, 1]]).toList.getD (r * 2 + c) ' '
            = (if (([[1, 2, 3], [3, 2, 1]] : List (List Nat)).getD r []).getD c 0
                  < (([[1, 2, 3], [3, 2, 1]] : List (List Nat)).getD r []).getD (c + 1) 0
               then '1' else '0')) :=
  ⟨by decide, by decide,
    calculate_dhash_bits 2 [[1, 2, 3], [3, 2, 1]] (by decide) (by decide)⟩

/-! ### Greedy grouping (`ImageDeduplicator.group_similar_images`)

`self.image_hashes` is an insertion-ordered python dict from image path to
hash string; it is embedded as an association list whose keys are distinct.
`self.groups` is a dict `group_id ↦ member list` keyed consecutively by
`len(self.groups)`, embedded as the list of groups in creation order. -/

/-- Admission test of the inner scan:
`path2 not in processed and self.hamming_distance(hash1, hash2) <= self.threshold`.
The threshold is a python `int`. -/
def similarOk (threshold : Int) (hash1 : String) (processed : List String)
    (x : String × String) : Bool :=
  !(decide (x.1 ∈ processed)) &&
    decide ((hamming_distance hash1 x.2 : Int) ≤ threshold)

/-- Inner loop of `group_similar_images`: one scan over all images, admitting
every not-yet-processed image whose distance to the seed hash is within the
threshold; each admitted path is appended to `current_group` and added to
`processed`. Returns `(current_group, processed)`. -/
def scanGroup (threshold : Int) (hash1 : String) :
    List (String × String) → List String → List String × List String
  | [], processed => ([], processed)
  | x :: rest, processed =>
    if similarOk threshold hash1 processed x then
      let r := scanGroup threshold hash1 rest (processed ++ [x.1])
      (x.1 :: r.1, r.2)
    else
      scanGroup threshold hash1 rest processed

/-- Outer loop of `group_similar_images`: every image not yet processed seeds
a scan of the whole list; a non-empty `current_group` is appended as a new
group (`self.groups[len(self.groups)] = current_group`). -/
def groupLoop (threshold : Int) (all : List (String × String)) :
    List (String × String) → List String → List (List String) →
      List (List String)
  | [], _, groups => groups
  | x :: rest, processed, groups =>
    if x.1 ∈ processed then
      groupLoop threshold all rest processed groups
    else
      let r := scanGroup threshold x.2 all processed
      if r.1.isEmpty then groupLoop threshold all rest r.2 groups
      else groupLoop threshold all rest r.2 (groups ++ [r.1])

/-- The method `ImageDeduplicator.group_similar_images`, as a function of the
insertion-ordered image-hash association list. -/
def group_similar_images (threshold : Int)
    (image_hashes : List (String × String)) : List (List String) :=
  groupLoop threshold image_hashes image_hashes [] []

/-! ### Representative selection (`ImageDeduplicator.select_representatives`) -/

/-- The three branches of `select_representatives`' method dispatch; any
method string other than `'random'` and `'highest_res'` takes the `first`
branch. -/
inductive Method
  | first
  | random
  | highest_res

/-- Python `max(group, key=res)`: a left fold that replaces the current best
only on a strictly greater key, so the earliest of several maxima wins. -/
def maxByKey (res : String → Nat) (x : String) (xs : List String) : String :=
  xs.foldl (fun best y => if res best < res y then y else best) x

/-- The body of `select_representatives` on one group. `res` stands for
`get_image_resolution` (`width * height` via PIL, `0` for unreadable files)
and `choose` for `random.choice`. Groups are never empty in context; an empty
group (where python would raise) maps to `""`. -/
def select_representative (method : Method) (res : String → Nat)
    (choose : List String → String) : List String → String
  | [] => ""
  | x :: xs =>
    match method with
    | Method.random => choose (x :: xs)
    | Method.highest_res => maxByKey res x xs
    | Method.first => x

/-- The method `select_representatives` over all groups, in group order. Python
accumulates the results into the set `self.representatives`; the underlying
list is kept here and de-duplicated where the set's size is needed. -/
def select_representatives (method : Method) (res : String → Nat)
    (choose : List String → String) (groups : List (List String)) :
    List String :=
  groups.map (select_representative method res choose)

/-! ### Statistics and the deduplicate entry point -/

/-- The method `get_group_statistics`, restricted to the fields the claims mention. The
float-valued `average_group_size`, `largest_group_size` and the
`size_distribution` histogram are not needed by any claim and are omitted.
`total_duplicates` is python integer subtraction
`len(self.image_hashes) - len(self.representatives)`. -/
structure Stats where
  total_images : Nat
  unique_groups : Nat
  total_duplicates : Int
  group_sizes : List Nat

/-- The embedded fields of `get_group_statistics`. `representatives` is a
python set, so its length counts distinct entries. -/
def get_group_statistics (image_hashes : List (String × String))
    (groups : List (List String)) (representatives : List String) : Stats :=
  { total_images := image_hashes.length
    unique_groups := groups.length
    total_duplicates :=
      (image_hashes.length : Int) - (representatives.dedup.length : Int)
    group_sizes := groups.map List.length }

/-- The method `ImageDeduplicator.deduplicate`: group the (externally hashed) images,
select representatives, report statistics. `process_directory`'s filesystem
walk and PIL hashing are external I/O whose outcome is the `image_hashes`
input. Returns the representative set (as a de-duplicated list) and the
statistics. -/
def deduplicate (threshold : Int) (method : Method) (res : String → Nat)
    (choose : List String → String)
    (image_hashes : List (String × String)) : List String × Stats :=
  let groups := group_similar_images threshold image_hashes
  let reps := select_representatives method res choose groups
  (reps.dedup, get_group_statistics image_hashes groups reps)

theorem scanGroup_eq (threshold : Int) (hash1 : String) :
    ∀ (M : List (String × String)) (P : List String),
      (M.map Prod.fst).Nodup →
      scanGroup threshold hash1 M P =
        ((M.filter (similarOk threshold hash1 P)).map Prod.fst,
          P ++ (M.filter (similarOk threshold hash1 P)).map Prod.fst) := by
  intro M
  induction M with
  | nil => intro P _; simp [scanGroup]
  | cons x rest ih =>
    intro P hnd
    have hnd2 : (x.1 :: rest.map Prod.fst).Nodup := by
      rw [List.map_cons] at hnd; exact hnd
    have hnd' := List.nodup_cons.mp hnd2
    have hx1 : x.1 ∉ rest.map Prod.fst := hnd'.1
    have hrest : (rest.map Prod.fst).Nodup := hnd'.2
    by_cases hok : similarOk threshold hash1 P x
    · have hfilter : rest.filter (similarOk threshold hash1 (P ++ [x.1]))
          = rest.filter (similarOk threshold hash1 P) := by
        apply List.filter_congr
        intro y hy
        have hy1 : y.1 ≠ x.1 := by
          intro hcontr
          exact hx1 (hcontr ▸ List.mem_map_of_mem Prod.fst hy)
        simp [similarOk, List.mem_append, hy1]
      simp only [scanGroup, if_pos hok]
      rw [ih (P ++ [x.1]) hrest, hfilter,
        List.filter_cons_of_pos hok]
      simp [List.append_assoc]
    · simp only [scanGroup, if_neg hok]
      rw [ih P hrest, List.filter_cons_of_neg (by simpa using hok)]

theorem groupLoop_const (threshold : Int) (all : List (String × String)) :
    ∀ (suf : List (String × String)) (processed : List String)
      (groups : List (List String)),
      (∀ x ∈ suf, x.1 ∈ processed) →
      groupLoop threshold all suf processed groups = groups := by
  intro suf
  induction suf with
  | nil => intro processed groups _; rfl
  | cons x rest ih =>
    intro processed groups h
    have hx : x.1 ∈ processed := h x (by simp)
    simp only [groupLoop, if_pos hx]
    exact ih processed groups (fun y hy => h y (by simp [hy]))

/-- Helper for the all-identical case: with a non-negative threshold, the
first seed's scan admits every image, producing one group holding all paths
in input order. -/
theorem group_identical (threshold : Int) (h : String)
    (L : List (String × String)) (hT : 0 ≤ threshold)
    (hnd : (L.map Prod.fst).Nodup) (hne : L ≠ [])
    (hhash : ∀ x ∈ L, x.2 = h) :
    group_similar_images threshold L = [L.map Prod.fst] := by
  obtain ⟨x, rest, rfl⟩ := List.exists_cons_of_ne_nil hne
  have hall : ∀ y ∈ x :: rest, similarOk threshold x.2 [] y = true := by
    intro y hy
    have hx2 : x.2 = h := hhash x (by simp)
    have hy2 : y.2 = h := hhash y hy
    simp [similarOk, hamming_distance, hx2, hy2, hammingList_self, hT]
  have hscan := scanGroup_eq threshold x.2 (x :: rest) [] hnd
  rw [List.filter_eq_self.mpr hall] at hscan
  show groupLoop threshold (x :: rest) (x :: rest) [] [] = _
  rw [groupLoop]
  simp only [List.not_mem_nil, if_false, if_neg (List.not_mem_nil x.1)]
  rw [hscan]
  simp only [List.map_cons, List.isEmpty_cons, List.nil_append]
  rw [if_neg (by simp)]
  rw [groupLoop_const threshold (x :: rest) rest _ _ ?_]
  intro y hy
  exact List.mem_map_of_mem Prod.fst (List.mem_cons_of_mem x hy)

/-- Helper for the pairwise-separated case: every seed's scan admits only the
seed itself, so the groups are the singletons in input order. -/
theorem groupLoop_separated (threshold : Int) (hT : 0 ≤ threshold)
    (L : List (String × String)) (hnd : (L.map Prod.fst).Nodup)
    (hpw : L.Pairwise (fun a b =>
      threshold < (hamming_distance a.2 b.2 : Int))) :
    ∀ (suf pre : List (String × String)) (groups : List (List String)),
      L = pre ++ suf →
      groupLoop threshold L suf (pre.map Prod.fst) groups
        = groups ++ suf.map (fun y => [y.1]) := by
  intro suf
  induction suf with
  | nil => intro pre groups _; simp [groupLoop]
  | cons x rest ih =>
    intro pre groups hL
    have hndL : (pre.map Prod.fst ++ x.1 :: rest.map Prod.fst).Nodup := by
      have : L.map Prod.fst = pre.map Prod.fst ++ x.1 :: rest.map Prod.fst := by
        simp [hL]
      rwa [this] at hnd
    have hdisj := (List.nodup_append.mp hndL).2.2
    have hxpre : x.1 ∉ pre.map Prod.fst := by
      intro hmem
      exact hdisj hmem (by simp)
    have hsuf : (x :: rest).Pairwise (fun a b =>
        threshold < (hamming_distance a.2 b.2 : Int)) := by
      have := List.pairwise_append.mp (hL ▸ hpw)
      exact this.2.1
    have hrest_far : ∀ y ∈ rest, threshold < (hamming_distance x.2 y.2 : Int) :=
      (List.pairwise_cons.mp hsuf).1
    have hfilter :
        L.filter (similarOk threshold x.2 (pre.map Prod.fst)) = [x] := by
      rw [hL, List.filter_append]
      have h1 : pre.filter (similarOk threshold x.2 (pre.map Prod.fst)) = [] := by
        apply List.filter_eq_nil_iff.mpr
        intro y hy
        simp [similarOk, List.mem_map_of_mem Prod.fst hy]
      have hx : similarOk threshold x.2 (pre.map Prod.fst) x = true := by
        simp [similarOk, hxpre, hamming_distance, hammingList_self, hT]
      have h2 : rest.filter (similarOk threshold x.2 (pre.map Prod.fst)) = [] := by
        apply List.filter_eq_nil_iff.mpr
        intro y hy
        have := hrest_far y hy
        simp [similarOk]
        intro _
        omega
      rw [h1, List.filter_cons_of_pos hx, h2]
      simp
    have hscan := scanGroup_eq threshold x.2 L (pre.map Prod.fst) hnd
    rw [hfilter] at hscan
    rw [groupLoop, if_neg hxpre, hscan]
    simp only [List.map_cons, List.map_nil, List.isEmpty_cons]
    rw [if_neg (by simp)]
    have hpre' : (pre.map Prod.fst ++ [x.1]) = (pre ++ [x]).map Prod.fst := by
      simp
    rw [hpre', ih (pre ++ [x]) (groups ++ [[x.1]]) (by simp [hL])]
    simp

/-- On a one-element group every selection policy returns the sole member
(`random.choice` of a singleton is deterministic, modelled by `hchoose`). -/
theorem select_representative_singleton (method : Method) (res : String → Nat)
    (choose : List String → String) (hchoose : ∀ s, choose [s] = s)
    (s : String) : select_representative method res choose [s] = s := by
  cases method <;> simp [select_representative, maxByKey, hchoose]

/-- C10: `hamming_distance` is total on every pair of strings — rather than
failing on unequal lengths, it counts the differing positions within the
common prefix (python `zip` truncation), so its value is bounded by the
shorter string's length. -/
theorem hamming_distance_total (hash1 hash2 : String) :
    hamming_distance hash1 hash2
        = differingPositions hash1.toList hash2.toList ∧
      hamming_distance hash1 hash2 ≤ min hash1.length hash2.length := by
  refine ⟨hammingList_eq_differingPositions _ _, ?_⟩
  exact hammingList_le_min hash1.toList hash2.toList

/-- C8: if all pairwise hamming distances strictly exceed the (non-negative)
threshold, grouping yields one singleton group per image, in input order. -/
theorem group_separated_singletons (threshold : Int)
    (L : List (String × String)) (hT : 0 ≤ threshold)
    (hnd : (L.map Prod.fst).Nodup)
    (hsep : ∀ x ∈ L, ∀ y ∈ L, x.1 ≠ y.1 →
      threshold < (hamming_distance x.2 y.2 : Int)) :
    group_similar_images threshold L = L.map (fun x => [x.1]) ∧
      (group_similar_images threshold L).length = L.length := by
  have hpw : L.Pairwise (fun a b =>
      threshold < (hamming_distance a.2 b.2 : Int)) := by
    have hne : L.Pairwise (fun a b => a.1 ≠ b.1) := by
      simpa [List.Nodup, List.pairwise_map] using hnd
    exact hne.imp_of_mem (fun {a b} ha hb hab => hsep a ha b hb hab)
  have hmain := groupLoop_separated threshold hT L hnd hpw L [] [] (by simp)
  constructor
  · simpa [group_similar_images] using hmain
  · have : group_similar_images threshold L = L.map (fun x => [x.1]) := by
      simpa [group_similar_images] using hmain
    simp [this]

/-- C8 witness: three images with pairwise distances 1, 2, 2 over threshold 0
group into three singletons. -/
theorem group_separated_singletons_witness :
    (((([("a", "00"), ("b", "011"), ("c", "110")] :
        List (String × String)).map Prod.fst).Nodup) ∧
      (∀ x ∈ ([("a", "00"), ("b", "011"), ("c", "110")] :
          List (String × String)),
        ∀ y ∈ ([("a", "00"), ("b", "011"), ("c", "110")] :
          List (String × String)), x.1 ≠ y.1 →
        (0 : Int) < (hamming_distance x.2 y.2 : Int))) ∧
      (group_similar_images 0 [("a", "00"), ("b", "011"), ("c", "110")]
          = [["a"], ["b"], ["c"]] ∧
        (group_similar_images 0
          [("a", "00"), ("b", "011"), ("c", "110")]).length = 3) :=
  ⟨⟨by decide, by decide⟩,
    group_separated_singletons 0 [("a", "00"), ("b", "011"), ("c", "110")]
      (by decide) (by decide) (by decide)⟩

/-- C7: for `N` images with identical hashes, grouping yields a single group
holding all `N` paths in input order, and the report counts
`duplicates_removed = N - 1`, computed as `total_images` minus the number of
representatives. -/
theorem deduplicate_identical (threshold : Int) (method : Method)
    (res : String → Nat) (choose : List String → String) (h : String)
    (L : List (String × String)) (hT : 0 ≤ threshold)
    (hnd : (L.map Prod.fst).Nodup) (hne : L ≠ [])
    (hhash : ∀ x ∈ L, x.2 = h) :
    group_similar_images threshold L = [L.map Prod.fst] ∧
      (deduplicate threshold method res choose L).2.unique_groups = 1 ∧
      (deduplicate threshold method res choose L).2.total_duplicates
        = (L.length : Int) - 1 ∧
      (deduplicate threshold method res choose L).2.total_duplicates
        = ((deduplicate threshold method res choose L).2.total_images : Int)
          - ((deduplicate threshold method res choose L).1.length : Int) := by
  have hgroups := group_identical threshold h L hT hnd hne hhash
  refine ⟨hgroups, ?_, ?_, ?_⟩ <;>
    simp [deduplicate, hgroups, select_representatives,
      get_group_statistics, List.dedup_cons_of_not_mem, List.dedup_nil]

/-- C7 witness: three identical hashes give one group of three and
`duplicates_removed = 2 = 3 - 1`. -/
theorem deduplicate_identical_witness :
    ((([("a", "0101"), ("b", "0101"), ("c", "0101")] :
        List (String × String)).map Prod.fst).Nodup ∧
      (∀ x ∈ ([("a", "0101"), ("b", "0101"), ("c", "0101")] :
          List (String × String)), x.2 = "0101")) ∧
      (group_similar_images 10
          [("a", "0101"), ("b", "0101"), ("c", "0101")] = [["a", "b", "c"]] ∧
        (deduplicate 10 Method.first (fun _ => 0) (fun l => l.headD "")
          [("a", "0101"), ("b", "0101"), ("c", "0101")]).2.unique_groups = 1 ∧
        (deduplicate 10 Method.first (fun _ => 0) (fun l => l.headD "")
          [("a", "0101"), ("b", "0101"), ("c", "0101")]).2.total_duplicates
            = (3 : Int) - 1 ∧
        (deduplicate 10 Method.first (fun _ => 0) (fun l => l.headD "")
          [("a", "0101"), ("b", "0101"), ("c", "0101")]).2.total_duplicates
            = ((deduplicate 10 Method.first (fun _ => 0) (fun l => l.headD "")
                [("a", "0101"), ("b", "0101"), ("c", "0101")]).2.total_images : Int)
              - ((deduplicate 10 Method.first (fun _ => 0) (fun l => l.headD "")
                [("a", "0101"), ("b", "0101"), ("c", "0101")]).1.length : Int)) := by
  refine ⟨⟨by decide, by decide⟩, ?_⟩
  have := deduplicate_identical 10 Method.first (fun _ => 0)
    (fun l => l.headD "") "0101"
    [("a", "0101"), ("b", "0101"), ("c", "0101")]
    (by decide) (by decide) (by decide) (by decide)
  simpa using this

/-- C6: grouping is idempotent — if a prior run of grouping on this image set
left one image per group (every image the representative of its own
singleton group), re-running deduplication on the same set yields one group
per image, each a singleton whose sole member is its representative, with
`duplicates_removed = 0`. -/
theorem deduplicate_idempotent (threshold : Int) (method : Method)
    (res : String → Nat) (choose : List String → String)
    (L : List (String × String))
    (hnd : (L.map Prod.fst).Nodup)
    (hchoose : ∀ s, choose [s] = s)
    (hprior : group_similar_images threshold L = L.map (fun x => [x.1])) :
    (group_similar_images threshold L).length = L.length ∧
      (∀ g ∈ group_similar_images threshold L,
        ∃ s, g = [s] ∧ select_representative method res choose g = s) ∧
      (deduplicate threshold method res choose L).1 = L.map Prod.fst ∧
      (deduplicate threshold method res choose L).2.total_duplicates = 0 ∧
      (deduplicate threshold method res choose L).2.unique_groups
        = L.length := by
  have hsel : ∀ s, select_representative method res choose [s] = s :=
    select_representative_singleton method res choose hchoose
  have hreps : select_representatives method res choose
      (group_similar_images threshold L) = L.map Prod.fst := by
    rw [hprior, select_representatives, List.map_map]
    apply List.map_congr_left
    intro x _
    exact hsel x.1
  refine ⟨by simp [hprior], ?_, ?_, ?_, ?_⟩
  · intro g hg
    rw [hprior] at hg
    rcases List.mem_map.mp hg with ⟨x, _, rfl⟩
    exact ⟨x.1, rfl, hsel x.1⟩
  · show (select_representatives method res choose
        (group_similar_images threshold L)).dedup = L.map Prod.fst
    rw [hreps, List.dedup_eq_self.mpr hnd]
  · show ((L.length : Int)
        - ((select_representatives method res choose
            (group_similar_images threshold L)).dedup.length : Int)) = 0
    rw [hreps, List.dedup_eq_self.mpr hnd]
    simp
  · simp [deduplicate, get_group_statistics, hprior]

/-- C6 witness: a two-image set already grouped into singletons re-groups into
the same singletons with zero duplicates removed, under the `random` policy
(whose choice on a singleton is forced). -/
theorem deduplicate_idempotent_witness :
    ((([("a", "00"), ("b", "11")] :
        List (String × String)).map Prod.fst).Nodup ∧
      (∀ s, ([s] : List String).headD "" = s) ∧
      group_similar_images 1 [("a", "00"), ("b", "11")]
        = ([("a", "00"), ("b", "11")] :
            List (String × String)).map (fun x => [x.1])) ∧
      ((group_similar_images 1 [("a", "00"), ("b", "11")]).length = 2 ∧
        (∀ g ∈ group_similar_images 1 [("a", "00"), ("b", "11")],
          ∃ s, g = [s] ∧
            select_representative Method.random (fun _ => 0)
              (fun l => l.headD "") g = s) ∧
        (deduplicate 1 Method.random (fun _ => 0) (fun l => l.headD "")
          [("a", "00"), ("b", "11")]).1 = ["a", "b"] ∧
        (deduplicate 1 Method.random (fun _ => 0) (fun l => l.headD "")
          [("a", "00"), ("b", "11")]).2.total_duplicates = 0 ∧
        (deduplicate 1 Method.random (fun _ => 0) (fun l => l.headD "")
          [("a", "00"), ("b", "11")]).2.unique_groups = 2) := by
  refine ⟨⟨by decide, fun s => rfl, by decide⟩, ?_⟩
  have := deduplicate_idempotent 1 Method.random (fun _ => 0)
    (fun l => l.headD "") [("a", "00"), ("b", "11")]
    (by decide) (fun s => rfl) (by decide)
  simpa using this

/-- Python's `max(xs, key=res)` semantics: the returned element splits its
list so that everything before it has a strictly smaller key and everything
after it a smaller-or-equal key — i.e. it is the earliest maximum. -/
theorem maxByKey_split (res : String → Nat) :
    ∀ (xs : List String) (x : String),
      ∃ l1 l2, x :: xs = l1 ++ maxByKey res x xs :: l2 ∧
        (∀ y ∈ l1, res y < res (maxByKey res x xs)) ∧
        (∀ y ∈ l2, res y ≤ res (maxByKey res x xs))
  | [], x => ⟨[], [], rfl, by simp, by simp⟩
  | y :: ys, x => by
    have hstep : maxByKey res x (y :: ys)
        = maxByKey res (if res x < res y then y else x) ys := rfl
    by_cases hxy : res x < res y
    · obtain ⟨l1, l2, hsplit, hl1, hl2⟩ := maxByKey_split res ys y
      have hm : maxByKey res x (y :: ys) = maxByKey res y ys := by
        rw [hstep, if_pos hxy]
      have hxm : res x < res (maxByKey res y ys) := by
        cases l1 with
        | nil =>
          have hy : y = maxByKey res y ys := by
            simpa using congrArg (·.headD "") hsplit
          exact hy ▸ hxy
        | cons a l1' =>
          have ha : y = a := by simpa using congrArg (·.headD "") hsplit
          have hya : res y < res (maxByKey res y ys) := by
            have := hl1 a (by simp)
            rwa [← ha] at this
          exact lt_trans hxy hya
      rw [hm]
      refine ⟨x :: l1, l2, ?_, ?_, hl2⟩
      · simpa using congrArg (List.cons x) hsplit
      · intro z hz
        rcases List.mem_cons.mp hz with rfl | hz'
        · exact hxm
        · exact hl1 z hz'
    · obtain ⟨l1, l2, hsplit, hl1, hl2⟩ := maxByKey_split res ys x
      have hm : maxByKey res x (y :: ys) = maxByKey res x ys := by
        rw [hstep, if_neg hxy]
      have hyx : res y ≤ res x := by omega
      rw [hm]
      cases l1 with
      | nil =>
        have hx : x = maxByKey res x ys := by
          simpa using congrArg (·.headD "") hsplit
        have hys : ys = l2 := by simpa using congrArg List.tail hsplit
        refine ⟨[], y :: l2, ?_, by simp, ?_⟩
        · rw [← hx, ← hys]
          simp
        · intro z hz
          rcases List.mem_cons.mp hz with rfl | hz'
          · exact le_trans hyx (le_of_eq (congrArg res hx))
          · exact hl2 z hz'
      | cons a l1' =>
        have ha : x = a := by simpa using congrArg (·.headD "") hsplit
        have hys : ys = l1' ++ maxByKey res x ys :: l2 := by
          simpa using congrArg List.tail hsplit
        have hxin : res x < res (maxByKey res x ys) := by
          have := hl1 a (by simp)
          rwa [← ha] at this
        refine ⟨x :: y :: l1', l2, ?_, ?_, hl2⟩
        · simp only [List.cons_append]
          rw [← hys]
        · intro z hz
          rcases List.mem_cons.mp hz with rfl | hz'
          · exact hxin
          · rcases List.mem_cons.mp hz' with rfl | hz''
            · exact lt_of_le_of_lt hyx hxin
            · exact hl1 z (List.mem_cons_of_mem a hz'')

/-- C9: under the `highest_res` policy, the representative of a non-empty
group is the member with the greatest `res` value (pixel count,
`width * height`), and among members tying for the greatest value the
earliest-admitted one wins: the group splits into strictly smaller members
before the representative and no-greater members after it. -/
theorem select_highest_res_spec (res : String → Nat)
    (choose : List String → String) (g : List String) (hne : g ≠ []) :
    select_representative Method.highest_res res choose g ∈ g ∧
      ∃ l1 l2,
        g = l1 ++ select_representative Method.highest_res res choose g :: l2 ∧
        (∀ y ∈ l1,
          res y < res (select_representative Method.highest_res res choose g)) ∧
        (∀ y ∈ l2,
          res y ≤ res (select_representative Method.highest_res res choose g)) := by
  obtain ⟨x, xs, rfl⟩ := List.exists_cons_of_ne_nil hne
  obtain ⟨l1, l2, hsplit, hl1, hl2⟩ := maxByKey_split res xs x
  have hsel : select_representative Method.highest_res res choose (x :: xs)
      = maxByKey res x xs := rfl
  refine ⟨?_, l1, l2, by rw [hsel]; exact hsplit,
    by rw [hsel]; exact hl1, by rw [hsel]; exact hl2⟩
  rw [hsel, hsplit]
  exact List.mem_append_right l1 (List.mem_cons_self _ _)

/-- C9 witness: on a group with pixel counts 100, 400, 250 the `highest_res`
representative is the member with 400, the earliest maximum. -/
theorem select_highest_res_spec_witness :
    (["a", "b", "c"] : List String) ≠ [] ∧
      (select_representative Method.highest_res
          (fun s => if s = "a" then 100 else if s = "b" then 400 else 250)
          (fun l => l.headD "") ["a", "b", "c"] ∈ (["a", "b", "c"] : List String) ∧
        ∃ l1 l2,
          (["a", "b", "c"] : List String)
            = l1 ++ select_representative Method.highest_res
                (fun s => if s = "a" then 100 else if s = "b" then 400 else 250)
                (fun l => l.headD "") ["a", "b", "c"] :: l2 ∧
          (∀ y ∈ l1,
            (if y = "a" then 100 else if y = "b" then 400 else 250)
              < (if select_representative Method.highest_res
                    (fun s => if s = "a" then 100 else if s = "b" then 400 else 250)
                    (fun l => l.headD "") ["a", "b", "c"] = "a" then 100
                 else if select_representative Method.highest_res
                    (fun s => if s = "a" then 100 else if s = "b" then 400 else 250)
                    (fun l => l.headD "") ["a", "b", "c"] = "b" then 400 else 250)) ∧
          (∀ y ∈ l2,
            (if y = "a" then 100 else if y = "b" then 400 else 250)
              ≤ (if select_representative Method.highest_res
                    (fun s => if s = "a" then 100 else if s = "b" then 400 else 250)
                    (fun l => l.headD "") ["a", "b", "c"] = "a" then 100
                 else if select_representative Method.highest_res
                    (fun s => if s = "a" then 100 else if s = "b" then 400 else 250)
                    (fun l => l.headD "") ["a", "b", "c"] = "b" then 400 else 250))) :=
  ⟨by decide,
    select_highest_res_spec
      (fun s => if s = "a" then 100 else if s = "b" then 400 else 250)
      (fun l => l.headD "") ["a", "b", "c"] (by decide)⟩

/-! ### The bounded frame queue (`src/legacy/record_photo.py`)

`ScreenCapture` couples the capture thread and the save thread through
`self.frame_queue = Queue(maxsize=30)`. Items are `(frame, rel_timestamp)`
pairs; the element type is abstract here. -/

/-- The bounded producer→writer queue. -/
structure FrameQueue (α : Type) where
  maxsize : Nat
  items : List α

/-- Python's `Queue.full()`: true exactly when `0 < maxsize <= qsize()`
(a queue constructed with `maxsize <= 0` is unbounded and never full). -/
def FrameQueue.full {α : Type} (q : FrameQueue α) : Bool :=
  decide (0 < q.maxsize ∧ q.maxsize ≤ q.items.length)

/-- The enqueue attempt in `capture_screen`:
`if not self.frame_queue.full(): self.frame_queue.put((frame, rel_timestamp))`
— a frame arriving at a full queue is dropped, without blocking, and the
capture loop proceeds to its next iteration. -/
def captureEnqueue {α : Type} (q : FrameQueue α) (frame : α) : FrameQueue α :=
  if q.full then q else { q with items := q.items ++ [frame] }

/-- Interleaved queue traffic: producer capture attempts
(`capture_screen`) and writer removals (`frame_queue.get` in `save_frames`). -/
inductive QueueEvent (α : Type)
  | capture (frame : α)
  | take

/-- Effect of a single event on the queue. -/
def queueStep {α : Type} (q : FrameQueue α) : QueueEvent α → FrameQueue α
  | QueueEvent.capture f => captureEnqueue q f
  | QueueEvent.take => { q with items := q.items.tail }

/-- The queue after an arbitrary interleaving of producer and writer events. -/
def runQueue {α : Type} (q : FrameQueue α) (events : List (QueueEvent α)) :
    FrameQueue α :=
  events.foldl queueStep q

theorem queueStep_invariant {α : Type} (q : FrameQueue α) (e : QueueEvent α)
    (h0 : 0 < q.maxsize) (hlen : q.items.length ≤ q.maxsize) :
    (queueStep q e).maxsize = q.maxsize ∧
      (queueStep q e).items.length ≤ q.maxsize := by
  cases e with
  | capture f =>
    by_cases hfull : q.full
    · simp [queueStep, captureEnqueue, hfull]
      exact hlen
    · have hlt : q.items.length < q.maxsize := by
        have := hfull
        simp [FrameQueue.full, h0] at this
        omega
      simp [queueStep, captureEnqueue, hfull]
      omega
  | take =>
    refine ⟨rfl, ?_⟩
    have := List.length_tail q.items
    simp only [queueStep]
    omega

theorem runQueue_invariant {α : Type} :
    ∀ (events : List (QueueEvent α)) (q : FrameQueue α),
      0 < q.maxsize → q.items.length ≤ q.maxsize →
      (runQueue q events).maxsize = q.maxsize ∧
        (runQueue q events).items.length ≤ q.maxsize := by
  intro events
  induction events with
  | nil => intro q _ hlen; exact ⟨rfl, hlen⟩
  | cons e rest ih =>
    intro q h0 hlen
    have hstep := queueStep_invariant q e h0 hlen
    have := ih (queueStep q e) (hstep.1 ▸ h0) (hstep.1 ▸ hstep.2)
    show (runQueue (queueStep q e) rest).maxsize = q.maxsize ∧ _
    rw [hstep.1] at this
    exact this

/-- C5: starting within capacity, no interleaving of capture attempts and
writer removals ever pushes the queue beyond its configured capacity; and a
capture attempt at a full queue leaves the queue unchanged — the new frame is
dropped, the step is total (non-blocking), and later events still apply. -/
theorem frame_queue_bounded {α : Type} (q : FrameQueue α)
    (events : List (QueueEvent α))
    (h0 : 0 < q.maxsize) (hinit : q.items.length ≤ q.maxsize) :
    (runQueue q events).items.length ≤ q.maxsize ∧
      (∀ (p : FrameQueue α) (f : α), p.full →
        captureEnqueue p f = p) ∧
      (∀ (p : FrameQueue α) (f : α) (later : List (QueueEvent α)), p.full →
        runQueue p (QueueEvent.capture f :: later) = runQueue p later) := by
  refine ⟨(runQueue_invariant events q h0 hinit).2, ?_, ?_⟩
  · intro p f hfull
    simp [captureEnqueue, hfull]
  · intro p f later hfull
    show runQueue (queueStep p (QueueEvent.capture f)) later = runQueue p later
    simp [queueStep, captureEnqueue, hfull]

/-- C5 witness: a queue of capacity 2 holding one frame, run through four
capture attempts and one removal, never exceeds two items; enqueueing into
the full queue `⟨2, [7, 8]⟩` drops the frame and continues. -/
theorem frame_queue_bounded_witness :
    (0 < (FrameQueue.mk 2 [5] : FrameQueue Nat).maxsize ∧
      (FrameQueue.mk 2 [5] : FrameQueue Nat).items.length ≤ 2) ∧
      ((runQueue (FrameQueue.mk 2 [5])
          [QueueEvent.capture 6, QueueEvent.capture 7, QueueEvent.take,
            QueueEvent.capture 8, QueueEvent.capture 9]).items.length ≤ 2 ∧
        (∀ (p : FrameQueue Nat) (f : Nat), p.full → captureEnqueue p f = p) ∧
        (∀ (p : FrameQueue Nat) (f : Nat) (later : List (QueueEvent Nat)),
          p.full → runQueue p (QueueEvent.capture f :: later)
            = runQueue p later)) :=
  ⟨⟨by decide, by decide⟩,
    frame_queue_bounded (FrameQueue.mk 2 [5])
      [QueueEvent.capture 6, QueueEvent.capture 7, QueueEvent.take,
        QueueEvent.capture 8, QueueEvent.capture 9] (by decide) (by decide)⟩

/-! ### The frame-writer loop (`ScreenCapture.save_frames`, `stop_capture`)

Frames are identified by their millisecond timestamps. -/

/-- State of the save thread: the cancellation flag (`stop_event`), the queue
contents, the files written so far, and whether the loop was torn down by an
uncaught exception. -/
structure WriterState where
  stopSet : Bool
  queue : List Nat
  written : List Nat
  crashed : Bool
deriving DecidableEq

/-- The method `ScreenCapture.save_frames`, fuel-indexed: the loop guard is
`while not (self.stop_event.is_set() and self.frame_queue.empty())`. In the
body, `frame_queue.get(timeout=1)` yields the head frame when the queue is
non-empty; on an empty queue it raises `queue.Empty` after the timeout — and
the handler clause `except Queue.Empty` then evaluates `Queue.Empty` on the
class `queue.Queue` (imported as `Queue`), which has no attribute `Empty`, so
an `AttributeError` escapes the `try` statement and the loop terminates
abnormally instead of re-checking the guard. -/
def save_frames_loop : Nat → WriterState → WriterState
  | 0, s => s
  | fuel + 1, s =>
    if s.stopSet ∧ s.queue = [] then s
    else
      match s.queue with
      | f :: rest =>
        save_frames_loop fuel
          { s with queue := rest, written := s.written ++ [f] }
      | [] => { s with crashed := true }

/-- The queue-clearing loop in `ScreenCapture.stop_capture`
(`while not self.frame_queue.empty(): self.frame_queue.get()`): each pending
frame is removed and discarded. Returns the final queue contents paired with
the frames this loop writes to disk — none. -/
def stop_capture_drain : List Nat → List Nat × List Nat
  | [] => ([], [])
  | _ :: rest => stop_capture_drain rest

/-- C2 divergence, evaluated on concrete inputs. First: with cancellation
not signaled and the queue momentarily empty, one queue-wait timeout ends the
writer loop through the broken `except Queue.Empty` clause (`crashed`),
instead of re-evaluating the drain-and-exit condition; the claim says a
timeout never stops the loop. Second: frames 100 and 150, enqueued before
cancellation and still queued when `stop_capture` runs, are drained by
`stop_capture` itself and discarded — written by no one — while the claim
says every frame enqueued before cancellation is written. -/
theorem save_frames_timeout_crash :
    save_frames_loop 1 (WriterState.mk false [] [] false)
        = WriterState.mk false [] [] true ∧
      (save_frames_loop 1 (WriterState.mk false [] [] false)).crashed = true ∧
      stop_capture_drain [100, 150] = ([], []) := by
  refine ⟨rfl, rfl, rfl⟩

/-! ### Timestamp filenames (`save_frames`) and their parsing
(`add_recordings`, `src/gideon/mechanisms/save.py`)

Paths are embedded as character lists, timestamps as a whole number of
milliseconds (the writer formats with exactly three fractional digits, so a
millisecond-precision timestamp is embedded exactly). -/

/-- Python `str.split(sep)` for a single-character separator. -/
def pySplit (sep : Char) : List Char → List (List Char)
  | [] => [[]]
  | c :: rest =>
    let r := pySplit sep rest
    if c = sep then [] :: r
    else (c :: r.headD []) :: r.tail

/-- Decimal digits of a natural number, most significant first (what python
prints for the integral part of a non-negative float). Fuel-indexed; `n + 1`
fuel always suffices. -/
def natDigitsCore : Nat → Nat → List Char
  | 0, _ => []
  | fuel + 1, n =>
    if n < 10 then [Char.ofNat (48 + n)]
    else natDigitsCore fuel (n / 10) ++ [Char.ofNat (48 + n % 10)]

/-- Decimal representation of a natural number. -/
def natDigits (n : Nat) : List Char :=
  natDigitsCore (n + 1) n

/-- The three fractional digits of `f"{t:.3f}"` for the millisecond part. -/
def pad3 (n : Nat) : List Char :=
  [Char.ofNat (48 + n / 100 % 10), Char.ofNat (48 + n / 10 % 10),
    Char.ofNat (48 + n % 10)]

/-- The filename `save_frames` writes for a
session-relative timestamp of `ms` milliseconds. -/
def frameFilename (ms : Nat) : List Char :=
  [ 'f', 'r', 'a', 'm', 'e', '_' ] ++ natDigits (ms / 1000) ++
    [ '.' ] ++ pad3 (ms % 1000) ++ [ '.', 'j', 'p', 'g' ]

/-- Value of a decimal digit character. -/
def digitVal (c : Char) : Option Nat :=
  if 48 ≤ c.toNat ∧ c.toNat ≤ 57 then some (c.toNat - 48) else none

/-- Accumulating decimal read. -/
def digitsToNatCore : List Char → Nat → Option Nat
  | [], acc => some acc
  | c :: rest, acc =>
    match digitVal c with
    | some d => digitsToNatCore rest (acc * 10 + d)
    | none => none

/-- Python `float(s)` restricted to the all-digit strings the parser below
feeds it: the numeric value, `none` for an empty or non-numeric string. -/
def digitsToNat : List Char → Option Nat
  | [] => none
  | c :: rest => digitsToNatCore (c :: rest) 0

/-- The timestamp extraction in `add_recordings`:
`float(path.split('/')[-1].split('_')[1].split('.')[0])` — the basename, then
the piece after the first underscore, then the piece before the first dot,
read as a number. Everything after the first dot — the embedded fractional
seconds — is cut off, so the result is a whole number of seconds. -/
def parse_timestamp (path : List Char) : Option Nat := do
  let base ← (pySplit '/' path).getLast?
  let second ← (pySplit '_' base).get? 1
  let lead ← (pySplit '.' second).head?
  digitsToNat lead

/-- C3 divergence, evaluated on concrete inputs: the writer embeds
`t = 12.345 s` as `frame_12.345.jpg`, but the hand-off parser recovers `12`
seconds — the 345 ms are lost — and the distinct millisecond timestamps
12345 ms and 12999 ms, written to distinct files, parse to the same value,
so the round trip does not recover `t` to millisecond precision. -/
theorem parse_timestamp_truncates :
    parse_timestamp (frameFilename 12345) = some 12 ∧
      12 * 1000 ≠ 12345 ∧
      frameFilename 12345 ≠ frameFilename 12999 ∧
      parse_timestamp (frameFilename 12999)
        = parse_timestamp (frameFilename 12345) := by
  refine ⟨by decide, by decide, by decide, by decide⟩

/-! ### On-disk effect of the storage hand-off
(`add_recordings` in `src/gideon/mechanisms/save.py` and
`GideonCapture._dedup_and_update_db` in `src/gideon/client.py`) -/

/-- File-system effect of `add_recordings`: inside the
`recordings.batch.fixed_size(...)` context manager, each source file is
removed (`os.remove(path)`) immediately after its `batch.add_object` call —
before the batch is flushed and before `failed_objects` is inspected. -/
def add_recordings_disk (source : List (List Char))
    (disk : List (List Char)) : List (List Char) :=
  source.foldl (fun d path => d.erase path) disk

/-- The post-batch check in `add_recordings`:
`if len(recordings.batch.failed_objects) > 0:` — it only chooses between an
error log line and a success log line; it restores no file and reports
nothing to the caller. -/
def add_recordings_logs_error (failedObjects : List (List Char)) : Bool :=
  !failedObjects.isEmpty

/-- Whether a filename ends in `.jpg` (`file.endswith('.jpg')`). -/
def endsWithJpg (f : List Char) : Bool :=
  [ '.', 'j', 'p', 'g' ].isSuffixOf f

/-- File-system effect of one `_dedup_and_update_db` cycle body once
representatives exist: hand the representative list to `add_recordings`
(which deletes every representative file while batching), then delete every
remaining `.jpg` in the output folder. `failedObjects` — the batch records a
storage hand-off fault as a non-empty `failed_objects` — is never consulted
before deleting. Returns the resulting disk contents paired with whether a
hand-off fault was logged. -/
def dedup_cycle_disk (representatives : List (List Char))
    (failedObjects : List (List Char)) (disk : List (List Char)) :
    List (List Char) × Bool :=
  if representatives.isEmpty then (disk, false)
  else
    let afterHandoff := add_recordings_disk representatives disk
    let errorLogged := add_recordings_logs_error failedObjects
    (afterHandoff.filter (fun f => !(endsWithJpg f)), errorLogged)

/-- C1 divergence, evaluated on a concrete cycle: with representative
`frame_1.000.jpg` and non-representative `frame_1.050.jpg` on disk and a
storage hand-off fault (`failed_objects` non-empty, containing the
representative's record), `add_recordings` has already deleted the
representative during batching, and the cycle's cleanup then deletes the
remaining jpg as well — no deletion is skipped, and the disk ends empty
instead of untouched as the claim requires. -/
theorem dedup_cycle_deletes_despite_fault :
    add_recordings_disk [frameFilename 1000]
        [frameFilename 1000, frameFilename 1050] = [frameFilename 1050] ∧
      add_recordings_logs_error [frameFilename 1000] = true ∧
      dedup_cycle_disk [frameFilename 1000] [frameFilename 1000]
        [frameFilename 1000, frameFilename 1050] = ([], true) := by
  refine ⟨by decide, by decide, by decide⟩

end Gideon
